import Mathlib

/-!
Shallow embedding of `util.go` of the `grab` download client
(package `grab`: `setLastModified`, `mkdirp`, `guessFilename`,
`normalizeFilename`, `checksum`), together with the Go standard-library
path helpers they call (`path.Clean`, `filepath.Base`, `filepath.Dir`
with the Unix separator `'/'`).

Strings are viewed through their character lists (`String.data`); the
Go predicates `filename == ""`, `strings.HasSuffix(filename, "/")` and
`strings.Contains(filename, "\x00")` are rendered over that list.
Filesystem state, HTTP header parsing and the hash algorithm are
modelled explicitly where the claims need them; each such model carries
a doc comment saying what it stands for.
-/

namespace Grab

/-- The error values of the embedded code. `errNoFilename` is the package's
`ErrNoFilename`; the other constructors stand for arbitrary Go `error`
values (context cancellation, I/O failures) threaded through `checksum`. -/
inductive GoError
  | errNoFilename
  | errCanceled
  | errOther (msg : String)
  deriving DecidableEq, Repr

/-- The backward scan of `path.Clean`'s `..`-case
(`out.w--; for out.w > dotdot && out.index(out.w) != '/' { out.w-- }`):
starting from `w` (the buffer length already decremented by one), walk
down while the position is above `dotdot` and the buffer character at
that position is not `'/'`; the result is the new buffer length. -/
def popLoop (out : List Char) (dotdot : Nat) : Nat → Nat
  | 0 => 0
  | w + 1 =>
    if dotdot < w + 1 ∧ out[w + 1]? ≠ some '/' then popLoop out dotdot w
    else w + 1

/-- Embeds `path.Clean`'s conditional separator before a normal component:
`if rooted && out.w != 1 || !rooted && out.w != 0 { out.append('/') }`. -/
def sepOut (rooted : Bool) (out : List Char) : List Char :=
  if (rooted = true ∧ out.length ≠ 1) ∨ (rooted = false ∧ out.length ≠ 0) then
    out ++ ['/']
  else out

/-- Embeds `path.Clean`'s non-rooted `..`-append:
`if out.w > 0 { out.append('/') }; out.append('.'); out.append('.')`. -/
def dotdotOut (out : List Char) : List Char :=
  (if 0 < out.length then out ++ ['/'] else out) ++ ['.', '.']

/-- The main loop of Go's `path.Clean` (rooted flag, output buffer,
`dotdot` marker, remaining input).  The first `Bool` is `true` while the
inner component-copying loop of the Go code is running; the copying loop
and the one-character skips of the `.`-cases are fused into the main
recursion so that the definition is structurally recursive on the
remaining input. -/
def cleanGo (rooted : Bool) : Bool → List Char → Nat → List Char → List Char
  | _, out, _, [] => out
  | true, out, dotdot, c :: rest =>
    if c = '/' then cleanGo rooted false out dotdot rest
    else cleanGo rooted true (out ++ [c]) dotdot rest
  | false, out, dotdot, c :: rest =>
    if c = '/' then cleanGo rooted false out dotdot rest
    else if c = '.' then
      match rest with
      | [] => out
      | d :: rest2 =>
        if d = '/' then cleanGo rooted false out dotdot rest2
        else if d = '.' ∧ (rest2 = [] ∨ rest2.head? = some '/') then
          if dotdot < out.length then
            cleanGo rooted false (out.take (popLoop out dotdot (out.length - 1)))
              dotdot rest2
          else if rooted = false then
            cleanGo rooted false (dotdotOut out) (dotdotOut out).length rest2
          else
            cleanGo rooted false out dotdot rest2
        else
          cleanGo rooted true (sepOut rooted out ++ ['.', d]) dotdot rest2
    else
      cleanGo rooted true (sepOut rooted out ++ [c]) dotdot rest

/-- Go `path.Clean` on the character list of a path: empty input yields
`"."`; a rooted path starts the buffer at `"/"` with `r = dotdot = 1`;
an empty output buffer yields `"."`. -/
def pathClean (p : List Char) : List Char :=
  if p = [] then ['.']
  else if p.head? = some '/' then
    let out := cleanGo true false ['/'] 1 p.tail
    if out = [] then ['.'] else out
  else
    let out := cleanGo false false [] 0 p
    if out = [] then ['.'] else out

/-- Go `filepath.Base` on Unix: empty input yields `"."`; strip trailing
separators, take everything after the last separator; if nothing is
left, yield `"/"`. -/
def filepathBase (p : List Char) : List Char :=
  if p = [] then ['.']
  else
    let r1 := p.reverse.dropWhile (fun c => c = '/')
    let b := (r1.takeWhile (fun c => c ≠ '/')).reverse
    if b = [] then ['/'] else b

/-- Go `filepath.Dir` on Unix (volume name is empty): everything up to
and including the last separator, run through `Clean`. -/
def filepathDir (p : List Char) : List Char :=
  pathClean ((p.reverse.dropWhile (fun c => c ≠ '/')).reverse)

/-- Function `normalizeFilename` from `util.go`: reject the empty string, a
trailing `'/'` and an embedded NUL byte; otherwise clean `"/" + filename`,
take the base name, and reject `""`, `"."` and `"/"`. -/
def normalizeFilename (filename : String) : Except GoError String :=
  if filename.data = [] ∨ filename.data.getLast? = some '/' ∨ '\x00' ∈ filename.data then
    .error .errNoFilename
  else
    let f := filepathBase (pathClean ('/' :: filename.data))
    if f = [] ∨ f = ['.'] ∨ f = ['/'] then .error .errNoFilename
    else .ok (String.mk f)

/-- The slice of `http.Response` consumed by `util.go`.  `urlPath` is
`resp.Request.URL.Path`; `contentDisposition` is
`resp.Header.Get("Content-Disposition")` (`""` when the header is
absent); `cdParams` is the outcome of `mime.ParseMediaType` on that
header (`none` on a parse error), with the parameter map as an
association list; `lastModified` is `resp.Header.Get("Last-Modified")`
and `lastModifiedTime` the outcome of
`time.Parse(http.TimeFormat, lastModified)` (`none` on a parse error). -/
structure HTTPResponse where
  urlPath : String
  contentDisposition : String
  cdParams : Option (List (String × String))
  lastModified : String
  lastModifiedTime : Option Int

/-- Go map access `params["filename"]`: the zero value `""` when the key
is absent. -/
def getParam (params : List (String × String)) (key : String) : String :=
  match params.lookup key with
  | some v => v
  | none => ""

/-- Function `guessFilename` from `util.go`: prefer the sanitized
`Content-Disposition` `filename` parameter when the header is present,
parses, and carries a non-empty `filename` that sanitizes; otherwise
sanitize the request URL path. -/
def guessFilename (resp : HTTPResponse) : Except GoError String :=
  let filename := resp.urlPath
  let fromHeader : Option String :=
    if resp.contentDisposition ≠ "" then
      match resp.cdParams with
      | some params =>
        if getParam params "filename" ≠ "" then
          match normalizeFilename (getParam params "filename") with
          | .ok hFilename => some hFilename
          | .error _ => none
        else none
      | none => none
    else none
  match fromHeader with
  | some hFilename => .ok hFilename
  | none => normalizeFilename filename

/-- Modelled from net/url: the `Path` component of an origin-form
request URL has the fragment (after `'#'`) and the query (after `'?'`)
removed. -/
def urlPathOf (rawURL : String) : String :=
  String.mk ((rawURL.data.takeWhile (fun c => c ≠ '#')).takeWhile (fun c => c ≠ '?'))

/-- Access and modification time of one file, as set by `os.Chtimes`. -/
structure FileTimes where
  atime : Int
  mtime : Int
  deriving DecidableEq, Repr

/-- A filesystem view for `os.Chtimes`: the files that exist, with their
current times, keyed by path. -/
abbrev TimesFS := List (String × FileTimes)

/-- Point update of the times of `name`. -/
def setTimes (fs : TimesFS) (name : String) (ft : FileTimes) : TimesFS :=
  fs.map (fun kv => if kv.1 = name then (name, ft) else kv)

/-- Modelled from os: `os.Chtimes(name, atime, mtime)` sets both times
of an existing file and fails with a path error when the file does not
exist. -/
def chtimes (fs : TimesFS) (name : String) (atime mtime : Int) : Except String TimesFS :=
  if (fs.lookup name).isSome then .ok (setTimes fs name ⟨atime, mtime⟩)
  else .error "no such file or directory"

/-- Function `setLastModified` from `util.go`: no-op when the `Last-Modified`
header is absent (`""`) or does not parse against `http.TimeFormat`;
otherwise `os.Chtimes(filename, lastmod, lastmod)`. -/
def setLastModified (resp : HTTPResponse) (fs : TimesFS) (filename : String) :
    Except String TimesFS :=
  if resp.lastModified = "" then .ok fs
  else
    match resp.lastModifiedTime with
    | none => .ok fs
    | some lastmod => chtimes fs filename lastmod lastmod

/-- A filesystem node as seen by `os.Stat`/`os.MkdirAll`: whether it is
a directory, and its permission bits. -/
structure FSNode where
  isDir : Bool
  perm : Nat
  deriving DecidableEq, Repr

/-- A filesystem view for `mkdirp`: the nodes that exist, keyed by path,
plus the set of paths on which `os.Stat` fails with an error other than
"does not exist" (e.g. permission denied). -/
structure FS where
  nodes : List (String × FSNode)
  statFail : List String
  deriving DecidableEq, Repr

/-- Outcome of `os.Stat` on a path. -/
inductive StatRes
  | notExist
  | failed
  | found (n : FSNode)
  deriving DecidableEq, Repr

/-- Modelled from os: `os.Stat` fails oddly on `statFail` paths, returns
the node when present, and "does not exist" otherwise. -/
def FS.stat (fs : FS) (p : String) : StatRes :=
  if p ∈ fs.statFail then .failed
  else
    match fs.nodes.lookup p with
    | some n => .found n
    | none => .notExist

/-- One step of `os.MkdirAll`: an existing directory is kept, an
existing non-directory is an error, a missing node is created as a
directory with permission `perm`. -/
def mkdirStep (perm : Nat) (fs : FS) (d : String) : Except String FS :=
  match fs.stat d with
  | .failed => .error "stat failed"
  | .found n => if n.isDir then .ok fs else .error "not a directory"
  | .notExist => .ok { fs with nodes := (d, ⟨true, perm⟩) :: fs.nodes }

/-- String form of `filepath.Dir`. -/
def filepathDirS (p : String) : String :=
  String.mk (filepathDir p.data)

/-- The chain of ancestors of a path, shallowest first, produced by
iterating `filepath.Dir` until it reaches a fixed point (fuelled by the
path length, which bounds the number of proper-parent steps). -/
def parentChain : Nat → String → List String
  | 0, p => [p]
  | fuel + 1, p =>
    let d := filepathDirS p
    if d = p then [p] else parentChain fuel d ++ [p]

/-- Ancestors of `p`, shallowest first. -/
def dirChain (p : String) : List String :=
  parentChain p.length p

/-- Modelled from os: `os.MkdirAll(p, perm)` ensures every ancestor of
`p` (shallowest first) is a directory, creating the missing ones with
permission `perm`. -/
def mkdirAllGo (perm : Nat) : List String → FS → Except String FS
  | [], fs => .ok fs
  | d :: rest, fs =>
    match mkdirStep perm fs d with
    | .ok fs1 => mkdirAllGo perm rest fs1
    | .error e => .error e

/-- Modelled from os: `os.MkdirAll`. -/
def mkdirAll (fs : FS) (p : String) (perm : Nat) : Except String FS :=
  mkdirAllGo perm (dirChain p) fs

/-- Outcome of `mkdirp`: success with the new filesystem, a returned
error, or a Go `panic`. -/
inductive MkdirpRes
  | ok (fs : FS)
  | ioError (msg : String)
  | panicked (msg : String)
  deriving DecidableEq, Repr

/-- Function `mkdirp` from `util.go`: stat the parent directory of the
destination path; on a non-"not exist" stat failure return an error; if
missing, `os.MkdirAll(dir, 0755)` (wrapping its error); if present but
not a directory, `panic`. -/
def mkdirp (fs : FS) (p : String) : MkdirpRes :=
  let dir := filepathDirS p
  match fs.stat dir with
  | .failed => .ioError "error checking destination directory"
  | .notExist =>
    match mkdirAll fs dir 0o755 with
    | .ok fs1 => .ok fs1
    | .error _ => .ioError "error creating destination directory"
  | .found fi => if ¬ fi.isDir then .panicked "destination path is not directory" else .ok fs

/-- Function `checksum` from `util.go`.
Modelled from the spec: the streaming-copy primitive
(`newTransfer`/`t.copy()`, defined outside `util.go` and not under
`src/`) is abstracted by its outcome `copyErr` — per the spec it streams
the file through the hash and returns the underlying error on a read
error or cancellation, `nil` on success.  Likewise `os.Open`,
`f.Close()` and `h.Sum(nil)` are abstracted by their outcomes `openErr`,
`closeErr` and `hashSum`.  The Go control flow with the named returns
`(b, err)` and `defer func() { err = f.Close() }()` is rendered exactly:
after a successful open, every return path runs the deferred assignment,
so the error slot of the result is `closeErr` on those paths. -/
def checksum (openErr : Option GoError) (copyErr : Option GoError)
    (closeErr : Option GoError) (hashSum : List Nat) : List Nat × Option GoError :=
  match openErr with
  | some e => ([], some e)
  | none =>
    match copyErr with
    | some _ => ([], closeErr)
    | none => (hashSum, closeErr)

/-! ## General list helpers -/

theorem length_dropWhile_le {α : Type} (p : α → Bool) (l : List α) :
    (l.dropWhile p).length ≤ l.length := by
  induction l with
  | nil => simp
  | cons a t ih =>
    rw [List.dropWhile_cons]
    by_cases h : p a = true
    · simp only [h, if_true]
      exact le_trans ih (by simp)
    · simp [h]

theorem takeWhile_of_all {α : Type} (p : α → Bool) (l : List α)
    (h : ∀ x ∈ l, p x = true) : l.takeWhile p = l := by
  induction l with
  | nil => simp
  | cons a t ih =>
    rw [List.takeWhile_cons, if_pos (h a (by simp))]
    rw [ih (fun x hx => h x (by simp [hx]))]

theorem dropWhile_of_all {α : Type} (p : α → Bool) (l : List α)
    (h : ∀ x ∈ l, p x = true) : l.dropWhile p = [] := by
  induction l with
  | nil => simp
  | cons a t ih =>
    rw [List.dropWhile_cons, if_pos (h a (by simp))]
    exact ih (fun x hx => h x (by simp [hx]))

theorem takeWhile_append_all {α : Type} (p : α → Bool) (l₁ l₂ : List α)
    (h : ∀ x ∈ l₁, p x = true) :
    (l₁ ++ l₂).takeWhile p = l₁ ++ l₂.takeWhile p := by
  induction l₁ with
  | nil => simp
  | cons a t ih =>
    rw [List.cons_append, List.takeWhile_cons, if_pos (h a (by simp))]
    rw [ih (fun x hx => h x (by simp [hx]))]
    simp

theorem takeWhile_nil_cases {α : Type} (p : α → Bool) (l : List α)
    (h : l.takeWhile p = []) : l = [] ∨ ∃ a, l.head? = some a ∧ p a = false := by
  cases l with
  | nil => exact Or.inl rfl
  | cons a t =>
    right
    refine ⟨a, rfl, ?_⟩
    by_contra hpa
    rw [List.takeWhile_cons, if_pos (by simpa using hpa)] at h
    exact List.cons_ne_nil _ _ h

theorem lookup_setTimes (fs : TimesFS) (name : String) (ft : FileTimes)
    (h : (fs.lookup name).isSome) :
    (setTimes fs name ft).lookup name = some ft := by
  induction fs with
  | nil => simp [List.lookup] at h
  | cons kv rest ih =>
    obtain ⟨k, v⟩ := kv
    by_cases hk : k = name
    · subst hk
      rw [setTimes, List.map_cons, if_pos (show (k, v).1 = k from rfl), List.lookup_cons]
      simp
    · rw [setTimes, List.map_cons]
      simp only [if_neg (by simpa using hk)]
      rw [List.lookup_cons]
      have hne : (name == k) = false := by
        simp [hk, Ne.symm hk]
      rw [hne]
      rw [List.lookup_cons, hne] at h
      exact ih h

/-! ## Claims about `checksum` -/

/-- C1: the claim says a failing copy makes `checksum` surface the
underlying error with an empty digest.  Evaluating the embedded code at
the failing input — open succeeds, the copy fails with a cancellation
error, `f.Close()` succeeds — shows the digest is indeed empty but the
returned error is `none`: the deferred `err = f.Close()` overwrites the
copy error, so no error reaches the caller. -/
theorem checksum_copy_error_lost :
    checksum none (some GoError.errCanceled) none [1] = ([], none) := rfl

/-- C8: whenever the open inside `checksum` succeeds, the returned error
is exactly the result of closing the file (the deferred `Close`
overwrites any earlier error), and when the copy also succeeds the
returned digest is the hash sum, so a failing `Close` after a successful
copy yields a non-nil digest together with the non-nil `Close` error. -/
theorem checksum_error_is_close (openErr copyErr closeErr : Option GoError)
    (hashSum : List Nat) (hopen : openErr = none) :
    (checksum openErr copyErr closeErr hashSum).2 = closeErr ∧
    (copyErr = none → (checksum openErr copyErr closeErr hashSum).1 = hashSum) := by
  subst hopen
  cases copyErr <;> simp [checksum]

theorem checksum_error_is_close_witness :
    (checksum none none (some (GoError.errOther "close failed")) [1]).2 =
      some (GoError.errOther "close failed") ∧
    ((none : Option GoError) = none →
      (checksum none none (some (GoError.errOther "close failed")) [1]).1 = [1]) :=
  checksum_error_is_close none none (some (GoError.errOther "close failed")) [1] rfl

/-! ## Claims about `normalizeFilename`: rejections -/

/-- C4: `normalizeFilename` rejects with `ErrNoFilename` every empty
string, every string ending in the path separator `'/'`, and every
string containing an embedded NUL byte — the rejection happens in the
sanitize step, before any normalization. -/
theorem normalizeFilename_rejects (s : String)
    (h : s.data = [] ∨ s.data.getLast? = some '/' ∨ '\x00' ∈ s.data) :
    normalizeFilename s = .error .errNoFilename := by
  rw [normalizeFilename, if_pos h]

theorem normalizeFilename_rejects_witness :
    normalizeFilename "" = .error .errNoFilename ∧
    normalizeFilename "a/" = .error .errNoFilename ∧
    normalizeFilename "a\x00b" = .error .errNoFilename :=
  ⟨normalizeFilename_rejects "" (by simp),
   normalizeFilename_rejects "a/" (by simp),
   normalizeFilename_rejects "a\x00b" (by right; right; simp)⟩

/-! ## Claim about the URL-path fallback on a query-carrying URL -/

/-- C7: for a response with no `Content-Disposition` header whose
originating request URL is `/files/data.csv?x=1`, `guessFilename`
returns `"data.csv"`: the query string is not part of `URL.Path`, so no
`'?'` or query suffix appears in the resolved filename. -/
theorem guessFilename_query_stripped :
    guessFilename ⟨urlPathOf "/files/data.csv?x=1", "", none, "", none⟩ =
      .ok "data.csv" ∧ '?' ∉ "data.csv".data :=
  ⟨rfl, by simp⟩

/-! ## Claim about `setLastModified` -/

/-- C5: `setLastModified` returns no error and leaves the filesystem
untouched when the `Last-Modified` header is absent or unparsable; when
it parses to `t`, the call is exactly `os.Chtimes(filename, t, t)`,
whose error (missing file) is propagated and whose success sets both the
access and the modification time to `t`. -/
theorem setLastModified_spec (resp : HTTPResponse) (fs : TimesFS) (name : String) :
    (resp.lastModified = "" → setLastModified resp fs name = .ok fs) ∧
    (resp.lastModifiedTime = none → setLastModified resp fs name = .ok fs) ∧
    (∀ t : Int, resp.lastModified ≠ "" → resp.lastModifiedTime = some t →
      setLastModified resp fs name = chtimes fs name t t ∧
      ((fs.lookup name).isSome = false →
        chtimes fs name t t = .error "no such file or directory") ∧
      (∀ fs1, chtimes fs name t t = .ok fs1 → fs1.lookup name = some ⟨t, t⟩)) := by
  refine ⟨?_, ?_, ?_⟩
  · intro h
    rw [setLastModified, if_pos h]
  · intro h
    rw [setLastModified]
    split
    · rfl
    · rw [h]
  · intro t h1 h2
    refine ⟨by rw [setLastModified, if_neg h1, h2], ?_, ?_⟩
    · intro h
      rw [chtimes, if_neg (by simp [h])]
    · intro fs1 h
      rw [chtimes] at h
      by_cases hs : (fs.lookup name).isSome
      · rw [if_pos hs] at h
        cases h
        exact lookup_setTimes fs name ⟨t, t⟩ hs
      · rw [if_neg hs] at h
        cases h

theorem setLastModified_spec_witness :
    (setLastModified ⟨"", "", none, "", none⟩ [("f", ⟨0, 0⟩)] "f" =
      .ok [("f", ⟨0, 0⟩)]) ∧
    (setLastModified ⟨"", "", none, "garbage", none⟩ [("f", ⟨0, 0⟩)] "f" =
      .ok [("f", ⟨0, 0⟩)]) ∧
    (setLastModified ⟨"", "", none, "Mon, 02 Jan 2006 15:04:05 GMT", some 5⟩
      [("f", ⟨0, 0⟩)] "f" = chtimes [("f", ⟨0, 0⟩)] "f" 5 5) ∧
    (List.lookup "f" [("f", (⟨5, 5⟩ : FileTimes))] = some ⟨5, 5⟩) :=
  ⟨(setLastModified_spec ⟨"", "", none, "", none⟩ [("f", ⟨0, 0⟩)] "f").1 rfl,
   (setLastModified_spec ⟨"", "", none, "garbage", none⟩ [("f", ⟨0, 0⟩)] "f").2.1 rfl,
   ((setLastModified_spec ⟨"", "", none, "Mon, 02 Jan 2006 15:04:05 GMT", some 5⟩
      [("f", ⟨0, 0⟩)] "f").2.2 5 (by simp) rfl).1,
   ((setLastModified_spec ⟨"", "", none, "Mon, 02 Jan 2006 15:04:05 GMT", some 5⟩
      [("f", ⟨0, 0⟩)] "f").2.2 5 (by simp) rfl).2.2 [("f", ⟨5, 5⟩)] rfl⟩

/-! ## Claim about `mkdirp` -/

theorem stat_notExist_lookup (fs : FS) (d : String) (h : fs.stat d = .notExist) :
    fs.nodes.lookup d = none := by
  rw [FS.stat] at h
  by_cases hm : d ∈ fs.statFail
  · rw [if_pos hm] at h
    simp at h
  · rw [if_neg hm] at h
    cases hl : fs.nodes.lookup d
    · rfl
    · rw [hl] at h
      simp at h

theorem stat_found_lookup (fs : FS) (d : String) (m : FSNode) (h : fs.stat d = .found m) :
    fs.nodes.lookup d = some m := by
  rw [FS.stat] at h
  by_cases hm : d ∈ fs.statFail
  · rw [if_pos hm] at h
    simp at h
  · rw [if_neg hm] at h
    cases hl : fs.nodes.lookup d
    · rw [hl] at h
      simp at h
    · rw [hl] at h
      simp only [StatRes.found.injEq] at h
      rw [h]

theorem mkdirAllGo_preserves (perm : Nat) (chain : List String) :
    ∀ fs fs1, mkdirAllGo perm chain fs = .ok fs1 →
    ∀ k n, fs.nodes.lookup k = some n → fs1.nodes.lookup k = some n := by
  induction chain with
  | nil =>
    intro fs fs1 h k n hk
    rw [mkdirAllGo] at h
    cases h
    exact hk
  | cons d0 rest ih =>
    intro fs fs1 h k n hk
    rw [mkdirAllGo] at h
    cases hstep : mkdirStep perm fs d0 with
    | error e =>
      rw [hstep] at h
      simp at h
    | ok fs2 =>
      rw [hstep] at h
      apply ih fs2 fs1 h k n
      rw [mkdirStep] at hstep
      cases hstat : fs.stat d0 with
      | failed =>
        simp only [hstat] at hstep
        simp at hstep
      | found m =>
        simp only [hstat] at hstep
        by_cases hdir : m.isDir = true
        · rw [if_pos hdir] at hstep
          cases hstep
          exact hk
        · rw [if_neg hdir] at hstep
          simp at hstep
      | notExist =>
        simp only [hstat] at hstep
        cases hstep
        by_cases hkd : k = d0
        · subst hkd
          rw [stat_notExist_lookup fs k hstat] at hk
          simp at hk
        · rw [List.lookup_cons]
          have : (k == d0) = false := by simp [hkd]
          rw [this]
          exact hk

theorem mkdirAllGo_creates (perm : Nat) (chain : List String) :
    ∀ fs fs1, mkdirAllGo perm chain fs = .ok fs1 →
    ∀ d ∈ chain, fs.nodes.lookup d = none →
      fs1.nodes.lookup d = some ⟨true, perm⟩ := by
  induction chain with
  | nil =>
    intro fs fs1 h d hd
    simp at hd
  | cons d0 rest ih =>
    intro fs fs1 h d hd hnone
    rw [mkdirAllGo] at h
    cases hstep : mkdirStep perm fs d0 with
    | error e =>
      rw [hstep] at h
      simp at h
    | ok fs2 =>
      rw [hstep] at h
      rw [mkdirStep] at hstep
      cases hstat : fs.stat d0 with
      | failed =>
        simp only [hstat] at hstep
        simp at hstep
      | found m =>
        simp only [hstat] at hstep
        by_cases hdir : m.isDir = true
        · rw [if_pos hdir] at hstep
          cases hstep
          cases List.mem_cons.mp hd with
          | inl hdd =>
            subst hdd
            rw [stat_found_lookup fs d m hstat] at hnone
            simp at hnone
          | inr hmem => exact ih fs fs1 h d hmem hnone
        · rw [if_neg hdir] at hstep
          simp at hstep
      | notExist =>
        simp only [hstat] at hstep
        cases hstep
        by_cases hkd : d = d0
        · subst hkd
          apply mkdirAllGo_preserves perm rest _ fs1 h d ⟨true, perm⟩
          rw [List.lookup_cons]
          simp
        · cases List.mem_cons.mp hd with
          | inl hdd => exact absurd hdd hkd
          | inr hmem =>
            apply ih _ fs1 h d hmem
            rw [List.lookup_cons]
            have : (d == d0) = false := by simp [hkd]
            rw [this]
            exact hnone

/-- C6: `mkdirp` on a destination file path: when the parent directory
does not exist and `os.MkdirAll` succeeds, `mkdirp` returns no error and
every previously missing ancestor now exists as a directory created with
mode `0755`; when the parent exists but is not a directory, `mkdirp`
panics rather than returning an error; when stat fails for a reason
other than non-existence, `mkdirp` returns an I/O error. -/
theorem mkdirp_spec (fs : FS) (p : String) :
    (∀ fs1, fs.stat (filepathDirS p) = .notExist →
      mkdirAll fs (filepathDirS p) 0o755 = .ok fs1 →
      mkdirp fs p = .ok fs1 ∧
      ∀ d ∈ dirChain (filepathDirS p), fs.nodes.lookup d = none →
        fs1.nodes.lookup d = some ⟨true, 0o755⟩) ∧
    (∀ n, fs.stat (filepathDirS p) = .found n → n.isDir = false →
      mkdirp fs p = .panicked "destination path is not directory") ∧
    (fs.stat (filepathDirS p) = .failed →
      mkdirp fs p = .ioError "error checking destination directory") := by
  refine ⟨?_, ?_, ?_⟩
  · intro fs1 hstat hall
    constructor
    · rw [mkdirp]
      simp only [hstat, hall]
    · intro d hd hnone
      exact mkdirAllGo_creates 0o755 (dirChain (filepathDirS p)) fs fs1 hall d hd hnone
  · intro n hstat hdir
    rw [mkdirp]
    simp only [hstat, hdir]
    simp
  · intro hstat
    rw [mkdirp]
    simp only [hstat]

theorem mkdirp_spec_witness :
    (mkdirp ⟨[], []⟩ "a/b.txt" =
      .ok ⟨[("a", ⟨true, 0o755⟩), (".", ⟨true, 0o755⟩)], []⟩ ∧
     List.lookup "a" (FS.nodes ⟨[("a", ⟨true, 0o755⟩), (".", ⟨true, 0o755⟩)], []⟩) =
       some ⟨true, 0o755⟩) ∧
    mkdirp ⟨[("x", ⟨false, 0⟩)], []⟩ "x/y" =
      .panicked "destination path is not directory" ∧
    mkdirp ⟨[], ["x"]⟩ "x/y" = .ioError "error checking destination directory" :=
  ⟨⟨((mkdirp_spec ⟨[], []⟩ "a/b.txt").1
      ⟨[("a", ⟨true, 0o755⟩), (".", ⟨true, 0o755⟩)], []⟩ rfl rfl).1,
    ((mkdirp_spec ⟨[], []⟩ "a/b.txt").1
      ⟨[("a", ⟨true, 0o755⟩), (".", ⟨true, 0o755⟩)], []⟩ rfl rfl).2
      "a" (by decide) rfl⟩,
   (mkdirp_spec ⟨[("x", ⟨false, 0⟩)], []⟩ "x/y").2.1 ⟨false, 0⟩ rfl rfl,
   (mkdirp_spec ⟨[], ["x"]⟩ "x/y").2.2 rfl⟩

/-! ## Claim about `guessFilename` -/

/-- C3: the filename resolver prefers the `Content-Disposition`
`filename` parameter — if the header is present, parses as a media type
and its non-empty `filename` sanitizes, that name is returned regardless
of the URL path; if the header is absent, invalid, empty-named or
failing sanitization, the resolver sanitizes the request URL path
instead; if that also fails, the no-filename error is returned. -/
theorem guessFilename_spec (resp : HTTPResponse) :
    (∀ params hname, resp.contentDisposition ≠ "" → resp.cdParams = some params →
      getParam params "filename" ≠ "" →
      normalizeFilename (getParam params "filename") = .ok hname →
      guessFilename resp = .ok hname) ∧
    (resp.contentDisposition = "" →
      guessFilename resp = normalizeFilename resp.urlPath) ∧
    (resp.cdParams = none →
      guessFilename resp = normalizeFilename resp.urlPath) ∧
    (∀ params, resp.cdParams = some params → getParam params "filename" = "" →
      guessFilename resp = normalizeFilename resp.urlPath) ∧
    (∀ params e, resp.cdParams = some params →
      normalizeFilename (getParam params "filename") = .error e →
      guessFilename resp = normalizeFilename resp.urlPath) ∧
    ((resp.contentDisposition = "" ∨ resp.cdParams = none ∨
      (∃ params, resp.cdParams = some params ∧
        (getParam params "filename" = "" ∨
         normalizeFilename (getParam params "filename") = .error .errNoFilename))) →
      normalizeFilename resp.urlPath = .error .errNoFilename →
      guessFilename resp = .error .errNoFilename) := by
  have h2 : resp.contentDisposition = "" →
      guessFilename resp = normalizeFilename resp.urlPath := by
    intro h
    rw [guessFilename]
    simp only [h, ne_eq, not_true_eq_false, if_false]
  have h3 : resp.cdParams = none →
      guessFilename resp = normalizeFilename resp.urlPath := by
    intro h
    rw [guessFilename]
    simp only [h, ite_self]
  have h4 : ∀ params, resp.cdParams = some params → getParam params "filename" = "" →
      guessFilename resp = normalizeFilename resp.urlPath := by
    intro params hp hempty
    rw [guessFilename]
    simp only [hp, hempty, ne_eq, not_true_eq_false, if_false, ite_self]
  have h5 : ∀ params e, resp.cdParams = some params →
      normalizeFilename (getParam params "filename") = .error e →
      guessFilename resp = normalizeFilename resp.urlPath := by
    intro params e hp herr
    rw [guessFilename]
    simp only [hp, herr, ite_self]
  refine ⟨?_, h2, h3, h4, h5, ?_⟩
  · intro params hname hcd hp hne hok
    rw [guessFilename]
    simp only [hp, hok, ne_eq, hcd, not_false_eq_true, if_true, hne, if_neg]
  · intro hF hurl
    rcases hF with hcd | hnp | ⟨params, hp, hcase⟩
    · rw [h2 hcd, hurl]
    · rw [h3 hnp, hurl]
    · rcases hcase with hempty | herr
      · rw [h4 params hp hempty, hurl]
      · rw [h5 params .errNoFilename hp herr, hurl]

theorem guessFilename_spec_witness :
    guessFilename ⟨"/ignored/path.bin", "attachment; filename=report.pdf",
      some [("filename", "report.pdf")], "", none⟩ = .ok "report.pdf" ∧
    guessFilename ⟨urlPathOf "/files/data.csv?x=1", "", none, "", none⟩ =
      normalizeFilename (urlPathOf "/files/data.csv?x=1") ∧
    guessFilename ⟨"/", "", none, "", none⟩ = .error .errNoFilename :=
  ⟨(guessFilename_spec ⟨"/ignored/path.bin", "attachment; filename=report.pdf",
      some [("filename", "report.pdf")], "", none⟩).1
      [("filename", "report.pdf")] "report.pdf" (by simp) rfl (by simp [getParam]) rfl,
   (guessFilename_spec ⟨urlPathOf "/files/data.csv?x=1", "", none, "", none⟩).2.1 rfl,
   (guessFilename_spec ⟨"/", "", none, "", none⟩).2.2.2.2.2 (Or.inl rfl) rfl⟩

/-! ## Structure of the rooted `Clean` buffer

The rooted main loop only ever holds `"/"` or `"/c₁/c₂/…/cₙ"` in its
buffer, where every `cᵢ` is a normal component: nonempty, free of
separators and distinct from `.` and `..`.  The lemmas below make that
invariant precise and drive the claims about `normalizeFilename`. -/

/-- A normal path component: nonempty, has no separator, and is neither
`.` nor `..`. -/
def IsNormal (c : List Char) : Prop :=
  c ≠ [] ∧ '/' ∉ c ∧ c ≠ ['.'] ∧ c ≠ ['.', '.']

/-- Buffer text contributed by a component list: `/c₁/c₂…`. -/
def compsStr : List (List Char) → List Char
  | [] => []
  | c :: cs => '/' :: (c ++ compsStr cs)

/-- The rooted buffer holding exactly the components `comps`. -/
def outOf (comps : List (List Char)) : List Char :=
  if comps = [] then ['/'] else compsStr comps

theorem compsStr_append (a b : List (List Char)) :
    compsStr (a ++ b) = compsStr a ++ compsStr b := by
  induction a with
  | nil => simp [compsStr]
  | cons c cs ih => simp [compsStr, ih]

theorem outOf_ne_nil (comps : List (List Char)) : outOf comps ≠ [] := by
  cases comps with
  | nil => simp [outOf]
  | cons c cs => simp [outOf, compsStr]

theorem one_lt_length_outOf (comps : List (List Char)) (hne : comps ≠ [])
    (h : ∀ c ∈ comps, c ≠ []) : 1 < (outOf comps).length := by
  cases comps with
  | nil => exact absurd rfl hne
  | cons c cs =>
    have hc : c ≠ [] := h c (by simp)
    have : 1 ≤ c.length := List.length_pos.mpr hc
    simp only [outOf, if_neg (List.cons_ne_nil c cs), compsStr, List.length_cons,
      List.length_append]
    omega

theorem sepOut_outOf (comps : List (List Char)) (h : ∀ c ∈ comps, c ≠ [])
    (q : List Char) : sepOut true (outOf comps) ++ q = outOf (comps ++ [q]) := by
  by_cases hc : comps = []
  · subst hc
    simp [sepOut, outOf, compsStr]
  · have hlen : 1 < (outOf comps).length := one_lt_length_outOf comps hc h
    have hcond : (true = true ∧ (outOf comps).length ≠ 1) ∨
        (true = false ∧ (outOf comps).length ≠ 0) := Or.inl ⟨rfl, by omega⟩
    rw [sepOut, if_pos hcond]
    simp [outOf, hc, compsStr_append, compsStr]

theorem outOf_snoc_append (comps : List (List Char)) (p extra : List Char) :
    outOf (comps ++ [p]) ++ extra = outOf (comps ++ [p ++ extra]) := by
  simp [outOf, compsStr_append, compsStr]

/-! One-step unfolding lemmas for `cleanGo`, one per branch of the
Go loop. -/

theorem cleanGo_nil {rooted mode : Bool} {out : List Char} {dotdot : Nat} :
    cleanGo rooted mode out dotdot [] = out := by
  rw [cleanGo.eq_def]
  cases mode <;> simp

theorem cleanGo_true_slash {rooted : Bool} {out : List Char} {dotdot : Nat}
    {rest : List Char} :
    cleanGo rooted true out dotdot ('/' :: rest) = cleanGo rooted false out dotdot rest := by
  rw [cleanGo.eq_def]
  simp

theorem cleanGo_true_cons {c : Char} (hc : c ≠ '/') {rooted : Bool} {out : List Char}
    {dotdot : Nat} {rest : List Char} :
    cleanGo rooted true out dotdot (c :: rest) =
      cleanGo rooted true (out ++ [c]) dotdot rest := by
  rw [cleanGo.eq_def]
  simp [hc]

theorem cleanGo_false_slash {rooted : Bool} {out : List Char} {dotdot : Nat}
    {rest : List Char} :
    cleanGo rooted false out dotdot ('/' :: rest) = cleanGo rooted false out dotdot rest := by
  rw [cleanGo.eq_def]
  simp

theorem cleanGo_dot_nil {rooted : Bool} {out : List Char} {dotdot : Nat} :
    cleanGo rooted false out dotdot ['.'] = out := by
  rw [cleanGo.eq_def]
  simp

theorem cleanGo_dot_slash {rooted : Bool} {out : List Char} {dotdot : Nat}
    {rest2 : List Char} :
    cleanGo rooted false out dotdot ('.' :: '/' :: rest2) =
      cleanGo rooted false out dotdot rest2 := by
  rw [cleanGo.eq_def]
  simp

theorem cleanGo_dotdot_pop {rest2 : List Char} (h : rest2 = [] ∨ rest2.head? = some '/')
    {out : List Char} {dotdot : Nat} (hpop : dotdot < out.length) {rooted : Bool} :
    cleanGo rooted false out dotdot ('.' :: '.' :: rest2) =
      cleanGo rooted false (out.take (popLoop out dotdot (out.length - 1))) dotdot rest2 := by
  rw [cleanGo.eq_def]
  simp [h, hpop]

theorem cleanGo_dotdot_rooted_skip {rest2 : List Char}
    (h : rest2 = [] ∨ rest2.head? = some '/') {out : List Char} {dotdot : Nat}
    (hpop : ¬ dotdot < out.length) :
    cleanGo true false out dotdot ('.' :: '.' :: rest2) =
      cleanGo true false out dotdot rest2 := by
  rw [cleanGo.eq_def]
  simp [h, hpop]

theorem cleanGo_dot_comp {d : Char} (hd : d ≠ '/')
    {rest2 : List Char} (hsh : ¬(d = '.' ∧ (rest2 = [] ∨ rest2.head? = some '/')))
    {rooted : Bool} {out : List Char} {dotdot : Nat} :
    cleanGo rooted false out dotdot ('.' :: d :: rest2) =
      cleanGo rooted true (sepOut rooted out ++ ['.', d]) dotdot rest2 := by
  rw [cleanGo.eq_def]
  simp [hd, hsh]

theorem cleanGo_comp {c : Char} (hc : c ≠ '/') (hc2 : c ≠ '.') {rooted : Bool}
    {out : List Char} {dotdot : Nat} {rest : List Char} :
    cleanGo rooted false out dotdot (c :: rest) =
      cleanGo rooted true (sepOut rooted out ++ [c]) dotdot rest := by
  rw [cleanGo.eq_def]
  simp [hc, hc2]

/-- The in-component mode of `cleanGo` copies characters up to the next
separator and then returns to component-start mode. -/
theorem cleanGo_inComp (rooted : Bool) (dotdot : Nat) :
    ∀ (s out : List Char),
    cleanGo rooted true out dotdot s =
      cleanGo rooted false (out ++ s.takeWhile (fun c => c ≠ '/')) dotdot
        (s.dropWhile (fun c => c ≠ '/')) := by
  intro s
  induction s with
  | nil => intro out; simp [cleanGo_nil]
  | cons c rest ih =>
    intro out
    by_cases hc : c = '/'
    · subst hc
      rw [cleanGo_true_slash, List.takeWhile_cons, List.dropWhile_cons]
      simp [cleanGo_false_slash]
    · rw [cleanGo_true_cons hc, ih, List.takeWhile_cons, List.dropWhile_cons]
      simp [hc, List.append_assoc]

/-- The backward scan of the `..`-case stops exactly at position `a`
when everything strictly above `a` (up to the start `w`) is not a
separator and `a` itself is a separator or the root marker. -/
theorem popLoop_stops (out : List Char) (a : Nat) (h1 : 1 ≤ a)
    (ha : 1 < a → out[a]? = some '/') :
    ∀ w, a ≤ w → (∀ i, a < i → i ≤ w → out[i]? ≠ some '/') →
    popLoop out 1 w = a := by
  intro w
  induction w with
  | zero => intro haw _; omega
  | succ w ihw =>
    intro haw hchars
    rw [popLoop]
    by_cases heq : a = w + 1
    · by_cases h1a : 1 < a
      · rw [if_neg]
        · omega
        · intro hcontra
          exact hcontra.2 (heq ▸ ha h1a)
      · have haone : a = 1 := by omega
        have hw0 : w = 0 := by omega
        subst hw0
        rw [if_neg (by simp)]
        omega
    · rw [if_pos]
      · exact ihw (by omega) (fun i hi1 hi2 => hchars i hi1 (by omega))
      · exact ⟨by omega, hchars (w + 1) (by omega) le_rfl⟩

/-- Popping the last component of a rooted buffer yields the buffer of
the remaining components. -/
theorem pop_outOf (comps : List (List Char)) (hnorm : ∀ c ∈ comps, IsNormal c)
    (hne : comps ≠ []) :
    (outOf comps).take (popLoop (outOf comps) 1 ((outOf comps).length - 1)) =
      outOf comps.dropLast := by
  obtain ⟨cs, q, rfl⟩ : ∃ cs q, comps = cs ++ [q] := by
    rcases List.eq_nil_or_concat comps with h | ⟨L, b, h⟩
    · exact absurd h hne
    · exact ⟨L, b, by simpa [List.concat_eq_append] using h⟩
  have hq : IsNormal q := hnorm q (by simp)
  have hqne : q ≠ [] := hq.1
  have hqs : ∀ x ∈ q, x ≠ '/' := fun x hx hxeq => hq.2.1 (hxeq ▸ hx)
  rw [List.dropLast_concat]
  by_cases hcs : cs = []
  · subst hcs
    have hout : outOf ([] ++ [q]) = '/' :: q := by simp [outOf, compsStr]
    rw [hout]
    have hlen : ('/' :: q).length - 1 = q.length := by simp
    rw [hlen]
    have hpop : popLoop ('/' :: q) 1 q.length = 1 := by
      apply popLoop_stops ('/' :: q) 1 le_rfl (by omega) q.length
        (List.length_pos.mpr hqne)
      intro i hi1 hi2
      obtain ⟨j, rfl⟩ : ∃ j, i = j + 1 := ⟨i - 1, by omega⟩
      rw [List.getElem?_cons_succ]
      cases hqj : q[j]? with
      | none => simp
      | some x =>
        have hxq : x ∈ q := List.getElem?_mem hqj
        simp [hqs x hxq]
    rw [hpop]
    simp [outOf]
  · have hA : outOf (cs ++ [q]) = outOf cs ++ '/' :: q := by
      simp [outOf, hcs, compsStr_append, compsStr]
    have hlenA : 1 < (outOf cs).length :=
      one_lt_length_outOf cs hcs (fun c hc => (hnorm c (by simp [hc])).1)
    rw [hA]
    have hlen : (outOf cs ++ '/' :: q).length - 1 = (outOf cs).length + q.length := by
      simp
    rw [hlen]
    have hpop : popLoop (outOf cs ++ '/' :: q) 1 ((outOf cs).length + q.length) =
        (outOf cs).length := by
      apply popLoop_stops (outOf cs ++ '/' :: q) (outOf cs).length (by omega)
        (fun _ => by rw [List.getElem?_append_right le_rfl]; simp)
        ((outOf cs).length + q.length) (by omega)
      intro i hi1 hi2
      rw [List.getElem?_append_right (by omega)]
      obtain ⟨j, hj⟩ : ∃ j, i - (outOf cs).length = j + 1 := ⟨i - (outOf cs).length - 1, by omega⟩
      rw [hj, List.getElem?_cons_succ]
      cases hqj : q[j]? with
      | none => simp
      | some x =>
        have hxq : x ∈ q := List.getElem?_mem hqj
        simp [hqs x hxq]
    rw [hpop, List.take_left]

theorem mem_of_mem_takeWhile {α : Type} {p : α → Bool} {l : List α} {x : α}
    (h : x ∈ l.takeWhile p) : x ∈ l := by
  induction l with
  | nil => simp at h
  | cons a t ih =>
    rw [List.takeWhile_cons] at h
    by_cases hp : p a = true
    · rw [if_pos hp] at h
      rcases List.mem_cons.mp h with rfl | h2
      · simp
      · simp [ih h2]
    · rw [if_neg hp] at h
      simp at h

theorem mem_of_mem_dropWhile {α : Type} {p : α → Bool} {l : List α} {x : α}
    (h : x ∈ l.dropWhile p) : x ∈ l := by
  induction l with
  | nil => simp at h
  | cons a t ih =>
    rw [List.dropWhile_cons] at h
    by_cases hp : p a = true
    · rw [if_pos hp] at h
      simp [ih h]
    · rw [if_neg hp] at h
      exact h

/-- The rooted `Clean` loop preserves the buffer invariant: starting
from the buffer of any list of normal components, it ends in the buffer
of a list of normal components whose characters all come from the
initial components or from the input. -/
theorem cleanGo_rooted_run : ∀ (n : Nat) (s : List Char), s.length ≤ n →
    ∀ comps : List (List Char), (∀ c ∈ comps, IsNormal c) →
    ∃ comps2 : List (List Char),
      cleanGo true false (outOf comps) 1 s = outOf comps2 ∧
      (∀ c ∈ comps2, IsNormal c) ∧
      (∀ x c2, c2 ∈ comps2 → x ∈ c2 → (∃ c ∈ comps, x ∈ c) ∨ x ∈ s) := by
  intro n
  induction n with
  | zero =>
    intro s hs comps hcomps
    have hsnil : s = [] := List.length_eq_zero.mp (Nat.le_zero.mp hs)
    subst hsnil
    exact ⟨comps, cleanGo_nil, hcomps, fun x c2 hc2 hx => Or.inl ⟨c2, hc2, hx⟩⟩
  | succ n ih =>
    intro s hs comps hcomps
    cases s with
    | nil => exact ⟨comps, cleanGo_nil, hcomps, fun x c2 hc2 hx => Or.inl ⟨c2, hc2, hx⟩⟩
    | cons c rest =>
      have hrest : rest.length ≤ n := by
        simp only [List.length_cons] at hs
        omega
      by_cases hc : c = '/'
      · subst hc
        rw [cleanGo_false_slash]
        obtain ⟨comps2, heq, hn2, hm2⟩ := ih rest hrest comps hcomps
        exact ⟨comps2, heq, hn2, fun x c2 hc2 hx =>
          (hm2 x c2 hc2 hx).imp id (fun hxr => List.mem_cons_of_mem _ hxr)⟩
      · by_cases hdot : c = '.'
        · subst hdot
          cases rest with
          | nil =>
            rw [cleanGo_dot_nil]
            exact ⟨comps, rfl, hcomps, fun x c2 hc2 hx => Or.inl ⟨c2, hc2, hx⟩⟩
          | cons d rest2 =>
            have hrest2 : rest2.length ≤ n := by
              simp only [List.length_cons] at hs
              omega
            by_cases hd : d = '/'
            · subst hd
              rw [cleanGo_dot_slash]
              obtain ⟨comps2, heq, hn2, hm2⟩ := ih rest2 hrest2 comps hcomps
              exact ⟨comps2, heq, hn2, fun x c2 hc2 hx =>
                (hm2 x c2 hc2 hx).imp id (fun hxr => by simp [hxr])⟩
            · by_cases hsh : d = '.' ∧ (rest2 = [] ∨ rest2.head? = some '/')
              · by_cases hlen2 : 1 < (outOf comps).length
                · have hcompsne : comps ≠ [] := by
                    intro hnil
                    rw [hnil] at hlen2
                    simp [outOf] at hlen2
                  obtain ⟨rfl, hsh2⟩ := hsh
                  rw [cleanGo_dotdot_pop hsh2 hlen2, pop_outOf comps hcomps hcompsne]
                  obtain ⟨comps2, heq, hn2, hm2⟩ := ih rest2 hrest2 comps.dropLast
                    (fun c0 h0 => hcomps c0 (List.dropLast_subset _ h0))
                  refine ⟨comps2, heq, hn2, fun x c2 hc2 hx => ?_⟩
                  rcases hm2 x c2 hc2 hx with ⟨c0, h0, hx0⟩ | hxr
                  · exact Or.inl ⟨c0, List.dropLast_subset _ h0, hx0⟩
                  · exact Or.inr (by simp [hxr])
                · obtain ⟨rfl, hsh2⟩ := hsh
                  rw [cleanGo_dotdot_rooted_skip hsh2 hlen2]
                  obtain ⟨comps2, heq, hn2, hm2⟩ := ih rest2 hrest2 comps hcomps
                  exact ⟨comps2, heq, hn2, fun x c2 hc2 hx =>
                    (hm2 x c2 hc2 hx).imp id (fun hxr => by simp [hxr])⟩
              · rw [cleanGo_dot_comp hd hsh, cleanGo_inComp, List.append_assoc,
                  sepOut_outOf comps (fun c0 h0 => (hcomps c0 h0).1)]
                have hq : ('.' :: d :: rest2.takeWhile (fun c => c ≠ '/')) =
                    ['.', d] ++ rest2.takeWhile (fun c => c ≠ '/') := rfl
                have hqnorm : IsNormal ('.' :: d :: rest2.takeWhile (fun c => c ≠ '/')) := by
                  refine ⟨by simp, ?_, by simp, ?_⟩
                  · intro hmem
                    rcases List.mem_cons.mp hmem with h0 | h0
                    · exact absurd h0.symm (by decide)
                    · rcases List.mem_cons.mp h0 with h1 | h1
                      · exact hd h1.symm
                      · have := List.mem_takeWhile_imp h1
                        simp at this
                  · intro hcontra
                    have hdd : d = '.' := by
                      have := congrArg (fun l => l.tail.head?) hcontra
                      simpa using this
                    have htw : rest2.takeWhile (fun c => c ≠ '/') = [] := by
                      have := congrArg List.tail (congrArg List.tail hcontra)
                      simpa using this
                    rcases takeWhile_nil_cases _ _ htw with h0 | ⟨a, ha1, ha2⟩
                    · exact hsh ⟨hdd, Or.inl h0⟩
                    · have : a = '/' := by simpa using ha2
                      exact hsh ⟨hdd, Or.inr (by rw [ha1, this])⟩
                obtain ⟨comps2, heq, hn2, hm2⟩ :=
                  ih (rest2.dropWhile (fun c => c ≠ '/'))
                    (le_trans (length_dropWhile_le _ rest2) hrest2)
                    (comps ++ ['.' :: d :: rest2.takeWhile (fun c => c ≠ '/')])
                    (by
                      intro c0 h0
                      rcases List.mem_append.mp h0 with h1 | h1
                      · exact hcomps c0 h1
                      · rw [List.mem_singleton.mp h1]
                        exact hqnorm)
                rw [hq] at heq
                refine ⟨comps2, heq, hn2, fun x c2 hc2 hx => ?_⟩
                rcases hm2 x c2 hc2 hx with ⟨c0, h0, hx0⟩ | hxr
                · rcases List.mem_append.mp h0 with h1 | h1
                  · exact Or.inl ⟨c0, h1, hx0⟩
                  · rw [List.mem_singleton.mp h1] at hx0
                    rcases List.mem_cons.mp hx0 with rfl | hx1
                    · exact Or.inr (by simp)
                    · rcases List.mem_cons.mp hx1 with rfl | hx2
                      · exact Or.inr (by simp)
                      · exact Or.inr (by simp [mem_of_mem_takeWhile hx2])
                · exact Or.inr (by simp [mem_of_mem_dropWhile hxr])
        · rw [cleanGo_comp hc hdot, cleanGo_inComp, List.append_assoc,
            sepOut_outOf comps (fun c0 h0 => (hcomps c0 h0).1)]
          have hq : (c :: rest.takeWhile (fun x => x ≠ '/')) =
              [c] ++ rest.takeWhile (fun x => x ≠ '/') := rfl
          have hqnorm : IsNormal (c :: rest.takeWhile (fun x => x ≠ '/')) := by
            refine ⟨by simp, ?_, ?_, ?_⟩
            · intro hmem
              rcases List.mem_cons.mp hmem with h0 | h0
              · exact hc h0.symm
              · have := List.mem_takeWhile_imp h0
                simp at this
            · intro hcontra
              exact hdot (by simpa using congrArg List.head? hcontra)
            · intro hcontra
              exact hdot (by simpa using congrArg List.head? hcontra)
          obtain ⟨comps2, heq, hn2, hm2⟩ :=
            ih (rest.dropWhile (fun x => x ≠ '/'))
              (le_trans (length_dropWhile_le _ rest) hrest)
              (comps ++ [c :: rest.takeWhile (fun x => x ≠ '/')])
              (by
                intro c0 h0
                rcases List.mem_append.mp h0 with h1 | h1
                · exact hcomps c0 h1
                · rw [List.mem_singleton.mp h1]
                  exact hqnorm)
          rw [hq] at heq
          refine ⟨comps2, heq, hn2, fun x c2 hc2 hx => ?_⟩
          rcases hm2 x c2 hc2 hx with ⟨c0, h0, hx0⟩ | hxr
          · rcases List.mem_append.mp h0 with h1 | h1
            · exact Or.inl ⟨c0, h1, hx0⟩
            · rw [List.mem_singleton.mp h1] at hx0
              rcases List.mem_cons.mp hx0 with rfl | hx1
              · exact Or.inr (by simp)
              · exact Or.inr (by simp [mem_of_mem_takeWhile hx1])
          · exact Or.inr (by simp [mem_of_mem_dropWhile hxr])

/-- Cleaning a rooted path yields the buffer of a list of normal
components whose characters come from the input. -/
theorem pathClean_rooted_chars (l : List Char) :
    ∃ comps, pathClean ('/' :: l) = outOf comps ∧ (∀ c ∈ comps, IsNormal c) ∧
      (∀ x c, c ∈ comps → x ∈ c → x ∈ l) := by
  obtain ⟨comps2, heq, hn, hm⟩ := cleanGo_rooted_run l.length l le_rfl [] (by simp)
  have heq' : cleanGo true false ['/'] 1 l = outOf comps2 := heq
  refine ⟨comps2, ?_, hn, fun x c hc hx => ?_⟩
  · rw [pathClean]
    rw [if_neg (List.cons_ne_nil '/' l)]
    rw [if_pos (show ('/' :: l).head? = some '/' from rfl)]
    simp only [List.tail_cons]
    rw [heq', if_neg (outOf_ne_nil comps2)]
  · rcases hm x c hc hx with ⟨c0, h0, _⟩ | hxl
    · simp at h0
    · exact hxl

/-- Base name of a buffer ending in a separator followed by a nonempty
separator-free run: that run. -/
theorem filepathBase_append_last (Z q : List Char) (hq : q ≠ [])
    (hqs : ∀ x ∈ q, x ≠ '/') : filepathBase (Z ++ '/' :: q) = q := by
  have hpne : Z ++ '/' :: q ≠ [] := by simp
  simp only [filepathBase, if_neg hpne]
  obtain ⟨y, ys, hrev⟩ := List.exists_cons_of_ne_nil
    (show q.reverse ≠ [] by simpa using hq)
  have hy : y ∈ q := by
    rw [← List.mem_reverse, hrev]
    simp
  have hys : ∀ x ∈ ys, x ∈ q := fun x hx => by
    rw [← List.mem_reverse, hrev]
    simp [hx]
  have hrw : (Z ++ '/' :: q).reverse = y :: (ys ++ '/' :: Z.reverse) := by
    rw [List.reverse_append]
    simp [hrev]
  have hyd : (decide (y = '/')) = false := by simp [hqs y hy]
  have hyt : (decide (y ≠ '/')) = true := by simp [hqs y hy]
  have hsd : (decide (('/' : Char) ≠ '/')) = false := by simp
  rw [hrw, List.dropWhile_cons, hyd, if_neg (show ¬(false = true) by simp)]
  rw [List.takeWhile_cons, hyt, if_pos rfl]
  rw [takeWhile_append_all _ ys _ (fun x hx => by simp [hqs x (hys x hx)])]
  rw [List.takeWhile_cons, hsd, if_neg (show ¬(false = true) by simp), List.append_nil]
  have hrecover : (y :: ys).reverse = q := by
    rw [← hrev, List.reverse_reverse]
  rw [hrecover, if_neg hq]

/-- Cleaning `"/" + c` for a single normal component `c` returns
`"/" + c` unchanged. -/
theorem cleanGo_single_normal (c : List Char) (h : IsNormal c) :
    cleanGo true false ['/'] 1 c = '/' :: c := by
  obtain ⟨hne, hns, hnd, hndd⟩ := h
  have hsep : sepOut true ['/'] = ['/'] := by simp [sepOut]
  cases c with
  | nil => exact absurd rfl hne
  | cons e rest =>
    have he : e ≠ '/' := fun hcontra => hns (by simp [hcontra])
    by_cases he2 : e = '.'
    · subst he2
      cases rest with
      | nil => exact absurd rfl hnd
      | cons d rest2 =>
        have hd : d ≠ '/' := fun hcontra => hns (by simp [hcontra])
        have hsh : ¬(d = '.' ∧ (rest2 = [] ∨ rest2.head? = some '/')) := by
          rintro ⟨rfl, hcase | hcase⟩
          · exact hndd (by rw [hcase])
          · have hmem : '/' ∈ rest2 := by
              cases rest2 with
              | nil => simp at hcase
              | cons a t =>
                have : a = '/' := by simpa using hcase
                simp [this]
            exact hns (by simp [hmem])
        have hall : ∀ x ∈ rest2, (fun c => decide (c ≠ '/')) x = true := by
          intro x hx
          have : x ≠ '/' := fun hcontra => hns (by simp [hcontra ▸ hx])
          simpa using this
        rw [cleanGo_dot_comp hd hsh, cleanGo_inComp, takeWhile_of_all _ _ hall,
          dropWhile_of_all _ _ hall, cleanGo_nil, hsep]
        rfl
    · have hall : ∀ x ∈ rest, (fun c => decide (c ≠ '/')) x = true := by
        intro x hx
        have : x ≠ '/' := fun hcontra => hns (by simp [hcontra ▸ hx])
        simpa using this
      rw [cleanGo_comp he he2, cleanGo_inComp, takeWhile_of_all _ _ hall,
        dropWhile_of_all _ _ hall, cleanGo_nil, hsep]
      rfl

/-- Structure of every success of `normalizeFilename`: the result is the
base name of the cleaned rooted path, it is a normal component, and all
its characters come from the input (which passed the sanitize checks). -/
theorem normalizeFilename_ok_shape (s r : String) (h : normalizeFilename s = .ok r) :
    IsNormal r.data ∧ (∀ x ∈ r.data, x ∈ s.data) ∧
    r.data = filepathBase (pathClean ('/' :: s.data)) ∧ '\x00' ∉ s.data := by
  rw [normalizeFilename] at h
  by_cases h1 : s.data = [] ∨ s.data.getLast? = some '/' ∨ '\x00' ∈ s.data
  · rw [if_pos h1] at h
    simp at h
  · rw [if_neg h1] at h
    push_neg at h1
    by_cases h2 : filepathBase (pathClean ('/' :: s.data)) = [] ∨
        filepathBase (pathClean ('/' :: s.data)) = ['.'] ∨
        filepathBase (pathClean ('/' :: s.data)) = ['/']
    · rw [if_pos h2] at h
      simp at h
    · rw [if_neg h2] at h
      push_neg at h2
      have hr : r.data = filepathBase (pathClean ('/' :: s.data)) := by
        injection h with h3
        rw [← h3]
      obtain ⟨comps, hpc, hnorm, hmem⟩ := pathClean_rooted_chars s.data
      rcases List.eq_nil_or_concat comps with hnil | ⟨cs, q, hcs⟩
      · rw [hnil] at hpc
        rw [hpc] at h2
        exact absurd (show filepathBase (outOf []) = ['/'] from rfl) h2.2.2
      · rw [List.concat_eq_append] at hcs
        subst hcs
        have hq : IsNormal q := hnorm q (by simp)
        have hshape : outOf (cs ++ [q]) = compsStr cs ++ '/' :: q := by
          simp [outOf, compsStr_append, compsStr]
        have hf : filepathBase (pathClean ('/' :: s.data)) = q := by
          rw [hpc, hshape]
          exact filepathBase_append_last (compsStr cs) q hq.1
            (fun x hx hxe => hq.2.1 (hxe ▸ hx))
        rw [hf] at hr
        refine ⟨hr ▸ hq, fun x hx => ?_, hr.trans hf.symm, h1.2.2⟩
        rw [hr] at hx
        exact hmem x q (by simp) hx

/-! ## Claims about `normalizeFilename`: traversal safety, idempotence,
backslash handling -/

/-- C2: on any candidate containing a `../` sequence or starting with
`/`, a successful `normalizeFilename` returns exactly the last path
component of the cleaned path `"/" + candidate`, which contains no path
separator; in particular `"../../etc/passwd"` resolves to `"passwd"` and
`"/a/b/c.txt"` to `"c.txt"`. -/
theorem normalizeFilename_traversal (s r : String)
    (hcond : (∃ a b : List Char, s.data = a ++ '.' :: '.' :: '/' :: b) ∨
      s.data.head? = some '/')
    (hok : normalizeFilename s = .ok r) :
    r.data = filepathBase (pathClean ('/' :: s.data)) ∧
    (∀ x ∈ r.data, x ≠ '/') ∧
    normalizeFilename "../../etc/passwd" = .ok "passwd" ∧
    normalizeFilename "/a/b/c.txt" = .ok "c.txt" := by
  obtain ⟨hnorm, _, hshape, _⟩ := normalizeFilename_ok_shape s r hok
  exact ⟨hshape, fun x hx hxe => hnorm.2.1 (hxe ▸ hx), rfl, rfl⟩

theorem normalizeFilename_traversal_witness :
    ("c.txt" : String).data = filepathBase (pathClean ('/' :: ("/a/b/c.txt" : String).data)) ∧
    normalizeFilename "../../etc/passwd" = .ok "passwd" :=
  ⟨(normalizeFilename_traversal "/a/b/c.txt" "c.txt" (Or.inr rfl) rfl).1,
   (normalizeFilename_traversal "/a/b/c.txt" "c.txt" (Or.inr rfl) rfl).2.2.1⟩

/-- C9: `normalizeFilename` is idempotent on its successes — resolving
an already-resolved filename succeeds and returns it unchanged. -/
theorem normalizeFilename_idem (s r : String) (h : normalizeFilename s = .ok r) :
    normalizeFilename r = .ok r := by
  obtain ⟨hnorm, hsub, _, hnul⟩ := normalizeFilename_ok_shape s r h
  have hne := hnorm.1
  have hns := hnorm.2.1
  have hnd := hnorm.2.2.1
  have hclean : pathClean ('/' :: r.data) = '/' :: r.data := by
    rw [pathClean, if_neg (List.cons_ne_nil '/' r.data),
      if_pos (show ('/' :: r.data).head? = some '/' from rfl)]
    simp only [List.tail_cons]
    rw [cleanGo_single_normal r.data hnorm, if_neg (by simp)]
  have hbase : filepathBase ('/' :: r.data) = r.data :=
    filepathBase_append_last [] r.data hne (fun x hx hxe => hns (hxe ▸ hx))
  rw [normalizeFilename, if_neg ?hchk]
  case hchk =>
    rintro (h0 | h0 | h0)
    · exact hne h0
    · exact hns (List.mem_of_mem_getLast? h0)
    · exact hnul (hsub _ h0)
  rw [hclean, hbase, if_neg ?hchk2]
  case hchk2 =>
    rintro (h0 | h0 | h0)
    · exact hne h0
    · exact hnd h0
    · exact hns (by rw [h0]; simp)

theorem normalizeFilename_idem_witness : normalizeFilename "passwd" = .ok "passwd" :=
  normalizeFilename_idem "../../etc/passwd" "passwd" rfl

/-- C10: only `'/'` acts as a path separator — a nonempty candidate
containing a backslash but no slash and no NUL byte is returned
unchanged, backslash included. -/
theorem normalizeFilename_backslash (s : String) (h1 : s.data ≠ [])
    (h2 : '\\' ∈ s.data) (h3 : '/' ∉ s.data) (h4 : '\x00' ∉ s.data) :
    normalizeFilename s = .ok s := by
  have hnorm : IsNormal s.data := by
    refine ⟨h1, h3, ?_, ?_⟩
    · intro hcontra
      rw [hcontra] at h2
      simp at h2
    · intro hcontra
      rw [hcontra] at h2
      simp at h2
  have hne := hnorm.1
  have hns := hnorm.2.1
  have hnd := hnorm.2.2.1
  have hclean : pathClean ('/' :: s.data) = '/' :: s.data := by
    rw [pathClean, if_neg (List.cons_ne_nil '/' s.data),
      if_pos (show ('/' :: s.data).head? = some '/' from rfl)]
    simp only [List.tail_cons]
    rw [cleanGo_single_normal s.data hnorm, if_neg (by simp)]
  have hbase : filepathBase ('/' :: s.data) = s.data :=
    filepathBase_append_last [] s.data hne (fun x hx hxe => hns (hxe ▸ hx))
  rw [normalizeFilename, if_neg ?hchk]
  case hchk =>
    rintro (h0 | h0 | h0)
    · exact h1 h0
    · exact h3 (List.mem_of_mem_getLast? h0)
    · exact h4 h0
  rw [hclean, hbase, if_neg ?hchk2]
  case hchk2 =>
    rintro (h0 | h0 | h0)
    · exact hne h0
    · exact hnd h0
    · exact hns (by rw [h0]; simp)

theorem normalizeFilename_backslash_witness :
    normalizeFilename "..\\..\\x" = .ok "..\\..\\x" :=
  normalizeFilename_backslash "..\\..\\x" (by simp) (by simp) (by simp) (by simp)

end Grab
